import Mathlib

/-!
Verification of the filtering-and-classification pipeline of the
Polymarket near-certain scanner (`src/scanner.py`).

The pipeline stages `exclude_by_tags`, `exclude_by_keywords`,
`apply_price_threshold`, `flatten_multi_outcome_markets`,
`apply_time_window` and the sort of `export_to_xlsx` are shallowly
embedded below.  External-format boundaries are modelled as already
decoded inputs:

* `json.loads` of the `outcomes` / `outcomePrices` strings and the
  `float(...)` conversion of each price string are modelled by the
  `Option`-valued fields `Market.outcomes : Option (List String)` and
  `Market.outcomePrices : Option (List ℚ)`; `none` stands for a parse
  failure (caught `JSONDecodeError` / `ValueError` in the source).
* `datetime.fromisoformat` applied to the `endDate` string is modelled
  by `Market.endDate : Option Int` (an instant in seconds); `none`
  stands for an absent or malformed timestamp (caught `ValueError` /
  `AttributeError` in the source).
* Python floats are modelled by `ℚ`, instants by `Int` seconds.
* `datetime.now` is sampled once in `apply_time_window`; it is passed
  as the explicit parameter `now`.
* The Python `sorted` builtin is a stable ascending sort by the given
  key; it is modelled by `List.mergeSort`, the stable ascending sort of
  the Lean library, with the same key.
-/

namespace Scanner

/-- One category tag, as carried on a market and also as one entry of
the exclusion-tag mapping built by `fetch_exclusion_tags`; the id may be
absent, slug and label default to the empty string. -/
structure Tag where
  id : Option Int
  slug : String
  label : String
deriving DecidableEq

/-- One market object, with the external-format fields already decoded
(see the file header).  Fields not consumed by the embedded stages
(volume, liquidity, ...) are omitted. -/
structure Market where
  question : String
  /-- The title of the event object when that object is a dict, else
  absent. -/
  event : Option String
  category : String
  subcategory : String
  /-- Decoded `outcomes` JSON string; `none` = parse failure. -/
  outcomes : Option (List String)
  /-- Decoded `outcomePrices` JSON string with every entry converted by
  `float`; `none` = parse failure of the string or of some entry. -/
  outcomePrices : Option (List ℚ)
  /-- Parsed `endDate` instant in seconds; `none` = absent or malformed. -/
  endDate : Option Int
  slug : String
  tags : List Tag
deriving DecidableEq

/-- Python `str.lower`, character by character. -/
def lowerStr (s : String) : String :=
  ⟨s.data.map Char.toLower⟩

/-- Identifiers of the configured exclusion tags, keeping only
Python-truthy id values (present and nonzero), as `exclude_by_tags`
builds its id set. -/
def exclusionIds (cfg : List Tag) : List Int :=
  cfg.filterMap fun t =>
    match t.id with
    | some i => if i ≠ 0 then some i else none
    | none => none

/-- Lower-cased slugs of the configured exclusion tags. -/
def exclusionSlugs (cfg : List Tag) : List String :=
  cfg.map fun t => lowerStr t.slug

/-- Lower-cased labels of the configured exclusion tags. -/
def exclusionLabels (cfg : List Tag) : List String :=
  cfg.map fun t => lowerStr t.label

/-- The per-tag match test of `exclude_by_tags`:
`tag_id in exclusion_ids or tag_slug in exclusion_slugs or
tag_label in exclusion_labels`. -/
def tagMatches (cfg : List Tag) (t : Tag) : Bool :=
  (match t.id with
   | some i => decide (i ∈ exclusionIds cfg)
   | none => false)
  || decide (lowerStr t.slug ∈ exclusionSlugs cfg)
  || decide (lowerStr t.label ∈ exclusionLabels cfg)

/-- The matching tags collected for the diagnostic annotation stored
on an excluded market. -/
def matchedTags (cfg : List Tag) (m : Market) : List Tag :=
  m.tags.filter (tagMatches cfg)

/-- The tag-exclusion stage `exclude_by_tags`: returns the pair of
filtered markets and excluded markets, each excluded market carrying
its matched-tags annotation. -/
def exclude_by_tags (markets : List Market) (cfg : List Tag) :
    List Market × List (Market × List Tag) :=
  match markets with
  | [] => ([], [])
  | m :: ms =>
    let r := exclude_by_tags ms cfg
    if (matchedTags cfg m).isEmpty then
      (m :: r.1, r.2)
    else
      (r.1, (m, matchedTags cfg m) :: r.2)

/-- The fixed keyword list of `exclude_by_keywords`. -/
def esports_keywords : List String :=
  ["esports", "cs2", "cs:go", "dota", "league of legends", "valorant",
   "overwatch"]

/-- The searchable text of one market:
`f"{question} {event_title} {category} {subcategory}"` with every field
lower-cased (an absent event title contributes the empty string). -/
def searchableText (m : Market) : String :=
  lowerStr m.question ++ " " ++
  (match m.event with | some t => lowerStr t | none => "") ++ " " ++
  lowerStr m.category ++ " " ++ lowerStr m.subcategory

/-- The Python substring test of the keyword loop, on the underlying
character lists. -/
def strContains (text kw : String) : Bool :=
  decide (kw.data <:+: text.data)

/-- The matching keywords collected for the diagnostic annotation
stored on an excluded market. -/
def matchedKeywords (m : Market) : List String :=
  esports_keywords.filter fun kw => strContains (searchableText m) kw

/-- The keyword-exclusion stage `exclude_by_keywords`: returns the
pair of filtered markets and excluded markets, each excluded market
carrying its matched-keywords annotation. -/
def exclude_by_keywords (markets : List Market) :
    List Market × List (Market × List String) :=
  match markets with
  | [] => ([], [])
  | m :: ms =>
    let r := exclude_by_keywords ms
    if (matchedKeywords m).isEmpty then
      (m :: r.1, r.2)
    else
      (r.1, (m, matchedKeywords m) :: r.2)

/-- The annotations `apply_price_threshold` stores on a qualifying
market: `_is_binary` together with either `_yes_price`/`_no_price`
(binary) or `_outcomes`/`_prices` (multi-outcome). -/
inductive Classification where
  | binary (yes_price no_price : ℚ)
  | multi (outcomes : List String) (prices : List ℚ)
deriving DecidableEq

/-- The maximum of the price list, 0 when the list is empty, as the
multi-outcome branch of `apply_price_threshold` computes it. -/
def listMax : List ℚ → ℚ
  | [] => 0
  | p :: ps => ps.foldl max p

/-- The per-market body of the `apply_price_threshold` loop: `some c`
when the market lands in `meeting_threshold` carrying annotations `c`,
`none` when it lands in `below_threshold` (parse failure, the caught
`IndexError` on `prices[0]`, or a price below the threshold rules). -/
def classifyMarket (m : Market) (threshold : ℚ) : Option Classification :=
  match m.outcomes, m.outcomePrices with
  | some outcomes, some prices =>
    if outcomes = ["Yes", "No"] then
      match prices with
      | [] => none
      | yes_price :: rest =>
        if yes_price ≥ threshold ∨ yes_price ≤ 1 - threshold then
          some (.binary yes_price (rest.headD (1 - yes_price)))
        else
          none
    else
      if listMax prices ≥ threshold then
        some (.multi outcomes prices)
      else
        none
  | _, _ => none

/-- The classifier stage `apply_price_threshold`: returns the pair of
markets meeting the threshold and markets below it, each qualifying
market paired with its attached annotations. -/
def apply_price_threshold (markets : List Market) (threshold : ℚ) :
    List (Market × Classification) × List Market :=
  match markets with
  | [] => ([], [])
  | m :: ms =>
    let r := apply_price_threshold ms threshold
    match classifyMarket m threshold with
    | some c => ((m, c) :: r.1, r.2)
    | none => (r.1, m :: r.2)

/-- One output row produced by `flatten_multi_outcome_markets`. -/
structure Row where
  market : Market
  outcome : String
  yes_price : ℚ
  no_price : Option ℚ
  certainty_side : String
  is_binary : Bool
deriving DecidableEq

/-- The rows one qualifying market contributes in
`flatten_multi_outcome_markets`. -/
def flattenMarket (m : Market) (c : Classification) (threshold : ℚ) :
    List Row :=
  match c with
  | .binary yes_price no_price =>
    if yes_price ≥ threshold then
      [⟨m, "YES", yes_price, some no_price, "YES", true⟩]
    else if yes_price ≤ 1 - threshold then
      [⟨m, "NO", yes_price, some no_price, "NO", true⟩]
    else
      []
  | .multi outcomes prices =>
    (outcomes.zip prices).filterMap fun op =>
      if op.2 ≥ threshold then
        some ⟨m, op.1, op.2, none, op.1, false⟩
      else
        none

/-- The flattener stage `flatten_multi_outcome_markets` over the
qualifying partition of `apply_price_threshold`. -/
def flatten_multi_outcome_markets (markets : List (Market × Classification))
    (threshold : ℚ) : List Row :=
  match markets with
  | [] => []
  | (m, c) :: rest =>
    flattenMarket m c threshold ++ flatten_multi_outcome_markets rest threshold

/-- The public link of a market: the fixed URL template populated
with the market slug, or the empty string when the slug is empty. -/
def marketUrl (m : Market) : String :=
  if m.slug ≠ "" then "https://polymarket.com/market/" ++ m.slug else ""

/-- The fields `apply_time_window` adds to a retained row:
`resolve_datetime`, `hours_remaining`, `market_url`. -/
structure Derived where
  resolve_datetime : Int
  hours_remaining : ℚ
  market_url : String
deriving DecidableEq

/-- Result of `apply_time_window`: the two partitions plus the list of
all parseable `endDate` instants (used for the diagnostic min/max). -/
structure TimeWindowResult where
  in_window : List (Row × Derived)
  outside_window : List Row
  all_dates : List Int
deriving DecidableEq

/-- The window stage `apply_time_window` with the once-sampled
reference instant `now` made explicit; the window end is `now` plus
`window_hours` hours, in seconds.  A row is retained iff its end date
lies between `now` and the window end, both inclusive; an absent or
malformed end date (modelled `none`) routes the row outside the
window. -/
def apply_time_window (rows : List Row) (window_hours : Int) (now : Int) :
    TimeWindowResult :=
  match rows with
  | [] => ⟨[], [], []⟩
  | r :: rs =>
    let t := apply_time_window rs window_hours now
    match r.market.endDate with
    | none => ⟨t.in_window, r :: t.outside_window, t.all_dates⟩
    | some e =>
      if now ≤ e ∧ e ≤ now + window_hours * 3600 then
        ⟨(r, ⟨e, ((e - now : Int) : ℚ) / 3600, marketUrl r.market⟩) ::
           t.in_window,
         t.outside_window, e :: t.all_dates⟩
      else
        ⟨t.in_window, r :: t.outside_window, e :: t.all_dates⟩

/-- The minimum of the collected dates of `apply_time_window`, absent
when no date parsed. -/
def minDate (dates : List Int) : Option Int :=
  match dates with
  | [] => none
  | d :: ds => some (ds.foldl min d)

/-- The maximum of the collected dates of `apply_time_window`, absent
when no date parsed. -/
def maxDate (dates : List Int) : Option Int :=
  match dates with
  | [] => none
  | d :: ds => some (ds.foldl max d)

/-- The sort of `export_to_xlsx`: the Python stable ascending sort of
the rows by the derived resolution instant. -/
def rowLE (a b : Row × Derived) : Bool :=
  a.2.resolve_datetime ≤ b.2.resolve_datetime

def exportSortedRows (rows : List (Row × Derived)) : List (Row × Derived) :=
  rows.mergeSort rowLE

/-- The window-membership decision of `apply_time_window` for one row:
`endDate` parses and `now <= end_date <= window_end`. -/
def inWindowB (r : Row) (window_hours now : Int) : Bool :=
  match r.market.endDate with
  | none => false
  | some e => decide (now ≤ e ∧ e ≤ now + window_hours * 3600)

/-! ### Characterizations of the four partitioning stages -/

theorem exclude_by_tags_eq (ms : List Market) (cfg : List Tag) :
    exclude_by_tags ms cfg =
      (ms.filter fun m => (matchedTags cfg m).isEmpty,
       (ms.filter fun m => !(matchedTags cfg m).isEmpty).map
         fun m => (m, matchedTags cfg m)) := by
  induction ms with
  | nil => rfl
  | cons m ms ih =>
    by_cases h : (matchedTags cfg m).isEmpty = true <;>
      simp [exclude_by_tags, ih, h, List.filter_cons]

theorem exclude_by_keywords_eq (ms : List Market) :
    exclude_by_keywords ms =
      (ms.filter fun m => (matchedKeywords m).isEmpty,
       (ms.filter fun m => !(matchedKeywords m).isEmpty).map
         fun m => (m, matchedKeywords m)) := by
  induction ms with
  | nil => rfl
  | cons m ms ih =>
    by_cases h : (matchedKeywords m).isEmpty = true <;>
      simp [exclude_by_keywords, ih, h, List.filter_cons]

theorem apply_price_threshold_eq (ms : List Market) (T : ℚ) :
    apply_price_threshold ms T =
      (ms.filterMap fun m => (classifyMarket m T).map fun c => (m, c),
       ms.filter fun m => !(classifyMarket m T).isSome) := by
  induction ms with
  | nil => rfl
  | cons m ms ih =>
    cases h : classifyMarket m T <;>
      simp [apply_price_threshold, ih, h, List.filterMap_cons, List.filter_cons]

theorem mem_apply_price_threshold_fst (ms : List Market) (T : ℚ)
    (m : Market) (c : Classification) :
    (m, c) ∈ (apply_price_threshold ms T).1 ↔
      m ∈ ms ∧ classifyMarket m T = some c := by
  rw [apply_price_threshold_eq]
  simp only [List.mem_filterMap, Option.map_eq_some', Prod.mk.injEq]
  constructor
  · rintro ⟨a, ha, c', hc', rfl, rfl⟩
    exact ⟨ha, hc'⟩
  · rintro ⟨hm, hc⟩
    exact ⟨m, hm, c, hc, rfl, rfl⟩

theorem apply_price_threshold_fst_map (ms : List Market) (T : ℚ) :
    (apply_price_threshold ms T).1.map Prod.fst =
      ms.filter fun m => (classifyMarket m T).isSome := by
  induction ms with
  | nil => rfl
  | cons m ms ih =>
    cases h : classifyMarket m T <;>
      simp [apply_price_threshold, ih, h, List.filter_cons]

theorem apply_time_window_cons_none (r : Row) (rs : List Row) (W now : Int)
    (h : r.market.endDate = none) :
    apply_time_window (r :: rs) W now =
      ⟨(apply_time_window rs W now).in_window,
       r :: (apply_time_window rs W now).outside_window,
       (apply_time_window rs W now).all_dates⟩ := by
  simp only [apply_time_window, h]

theorem apply_time_window_cons_in (r : Row) (rs : List Row) (W now e : Int)
    (h : r.market.endDate = some e)
    (hw : now ≤ e ∧ e ≤ now + W * 3600) :
    apply_time_window (r :: rs) W now =
      ⟨(r, ⟨e, ((e - now : Int) : ℚ) / 3600, marketUrl r.market⟩) ::
         (apply_time_window rs W now).in_window,
       (apply_time_window rs W now).outside_window,
       e :: (apply_time_window rs W now).all_dates⟩ := by
  simp only [apply_time_window, h]
  rw [if_pos hw]

theorem apply_time_window_cons_out (r : Row) (rs : List Row) (W now e : Int)
    (h : r.market.endDate = some e)
    (hw : ¬(now ≤ e ∧ e ≤ now + W * 3600)) :
    apply_time_window (r :: rs) W now =
      ⟨(apply_time_window rs W now).in_window,
       r :: (apply_time_window rs W now).outside_window,
       e :: (apply_time_window rs W now).all_dates⟩ := by
  simp only [apply_time_window, h]
  rw [if_neg hw]

theorem inWindowB_none (r : Row) (W now : Int) (h : r.market.endDate = none) :
    inWindowB r W now = false := by
  simp only [inWindowB, h]

theorem inWindowB_some (r : Row) (W now e : Int)
    (h : r.market.endDate = some e) :
    inWindowB r W now = decide (now ≤ e ∧ e ≤ now + W * 3600) := by
  simp only [inWindowB, h]

theorem apply_time_window_outside_eq (rows : List Row) (W now : Int) :
    (apply_time_window rows W now).outside_window =
      rows.filter fun r => !inWindowB r W now := by
  induction rows with
  | nil => rfl
  | cons r rs ih =>
    cases h : r.market.endDate with
    | none =>
      rw [apply_time_window_cons_none r rs W now h]
      simp [List.filter_cons, inWindowB_none r W now h, ih]
    | some e =>
      by_cases hw : now ≤ e ∧ e ≤ now + W * 3600
      · rw [apply_time_window_cons_in r rs W now e h hw]
        simp [List.filter_cons, inWindowB_some r W now e h, decide_eq_true hw,
          ih]
      · rw [apply_time_window_cons_out r rs W now e h hw]
        simp [List.filter_cons, inWindowB_some r W now e h, decide_eq_false hw,
          ih]

theorem apply_time_window_in_map_fst (rows : List Row) (W now : Int) :
    (apply_time_window rows W now).in_window.map Prod.fst =
      rows.filter fun r => inWindowB r W now := by
  induction rows with
  | nil => rfl
  | cons r rs ih =>
    cases h : r.market.endDate with
    | none =>
      rw [apply_time_window_cons_none r rs W now h]
      simp [List.filter_cons, inWindowB_none r W now h, ih]
    | some e =>
      by_cases hw : now ≤ e ∧ e ≤ now + W * 3600
      · rw [apply_time_window_cons_in r rs W now e h hw]
        simp [List.filter_cons, inWindowB_some r W now e h, decide_eq_true hw,
          ih]
      · rw [apply_time_window_cons_out r rs W now e h hw]
        simp [List.filter_cons, inWindowB_some r W now e h, decide_eq_false hw,
          ih]

theorem mem_apply_time_window_in (rows : List Row) (W now : Int)
    (r : Row) (d : Derived) :
    (r, d) ∈ (apply_time_window rows W now).in_window ↔
      r ∈ rows ∧ ∃ e, r.market.endDate = some e ∧
        (now ≤ e ∧ e ≤ now + W * 3600) ∧
        d = ⟨e, ((e - now : Int) : ℚ) / 3600, marketUrl r.market⟩ := by
  induction rows with
  | nil => simp [apply_time_window]
  | cons r' rs ih =>
    cases h : r'.market.endDate with
    | none =>
      rw [apply_time_window_cons_none r' rs W now h]
      simp only [List.mem_cons, ih]
      constructor
      · rintro ⟨hr, e, he, hw, hd⟩
        exact ⟨Or.inr hr, e, he, hw, hd⟩
      · rintro ⟨rfl | hr, e, he, hw, hd⟩
        · rw [he] at h; cases h
        · exact ⟨hr, e, he, hw, hd⟩
    | some e' =>
      by_cases hw' : now ≤ e' ∧ e' ≤ now + W * 3600
      · rw [apply_time_window_cons_in r' rs W now e' h hw']
        simp only [List.mem_cons, ih, Prod.mk.injEq]
        constructor
        · rintro (⟨rfl, rfl⟩ | ⟨hr, e, he, hw, hd⟩)
          · exact ⟨Or.inl rfl, e', h, hw', rfl⟩
          · exact ⟨Or.inr hr, e, he, hw, hd⟩
        · rintro ⟨rfl | hr, e, he, hw, hd⟩
          · obtain rfl : e = e' := Option.some.inj (he.symm.trans h)
            exact Or.inl ⟨rfl, hd⟩
          · exact Or.inr ⟨hr, e, he, hw, hd⟩
      · rw [apply_time_window_cons_out r' rs W now e' h hw']
        simp only [List.mem_cons, ih]
        constructor
        · rintro ⟨hr, e, he, hw, hd⟩
          exact ⟨Or.inr hr, e, he, hw, hd⟩
        · rintro ⟨rfl | hr, e, he, hw, hd⟩
          · obtain rfl : e = e' := Option.some.inj (he.symm.trans h)
            exact absurd hw hw'
          · exact ⟨hr, e, he, hw, hd⟩

/-! ### Lemmas about `listMax` -/

theorem foldl_max_mem (ps : List ℚ) (a : ℚ) :
    ps.foldl max a = a ∨ ps.foldl max a ∈ ps := by
  induction ps generalizing a with
  | nil => exact Or.inl rfl
  | cons q ps ih =>
    rcases ih (max a q) with h | h
    · rcases max_choice a q with hm | hm
      · exact Or.inl (by rw [List.foldl_cons, h, hm])
      · refine Or.inr ?_
        rw [List.foldl_cons, h, hm]
        exact List.mem_cons_self q ps
    · exact Or.inr (List.mem_cons_of_mem q h)

theorem listMax_mem (ps : List ℚ) (h : ps ≠ []) : listMax ps ∈ ps := by
  match ps, h with
  | p :: ps, _ =>
    rcases foldl_max_mem ps p with h1 | h1
    · rw [listMax, h1]; exact List.mem_cons_self p ps
    · rw [listMax]; exact List.mem_cons_of_mem p h1

theorem le_foldl_max (ps : List ℚ) (a : ℚ) : a ≤ ps.foldl max a := by
  induction ps generalizing a with
  | nil => exact le_refl a
  | cons q ps ih => exact le_trans (le_max_left a q) (ih (max a q))

theorem mem_le_foldl_max (ps : List ℚ) (a p : ℚ) (h : p ∈ ps) :
    p ≤ ps.foldl max a := by
  induction ps generalizing a with
  | nil => cases h
  | cons q ps ih =>
    rcases List.mem_cons.mp h with rfl | h1
    · exact le_trans (le_max_right a p) (le_foldl_max ps (max a p))
    · exact ih (max a q) h1

theorem le_listMax_of_mem (p : ℚ) (ps : List ℚ) (h : p ∈ ps) :
    p ≤ listMax ps := by
  match ps, h with
  | q :: ps, h =>
    rcases List.mem_cons.mp h with rfl | h1
    · rw [listMax]; exact le_foldl_max ps p
    · rw [listMax]; exact mem_le_foldl_max ps q p h1

theorem listMax_ge_iff (T : ℚ) (ps : List ℚ) (h : ps ≠ []) :
    T ≤ listMax ps ↔ ∃ p ∈ ps, T ≤ p := by
  constructor
  · intro hT
    exact ⟨listMax ps, listMax_mem ps h, hT⟩
  · rintro ⟨p, hp, hT⟩
    exact le_trans hT (le_listMax_of_mem p ps hp)

/-! ### Lemmas about the flattener -/

theorem mem_flatten_iff (l : List (Market × Classification)) (T : ℚ)
    (r : Row) :
    r ∈ flatten_multi_outcome_markets l T ↔
      ∃ mc ∈ l, r ∈ flattenMarket mc.1 mc.2 T := by
  induction l with
  | nil => simp [flatten_multi_outcome_markets]
  | cons mc rest ih =>
    cases mc with
    | mk m c => simp [flatten_multi_outcome_markets, ih]

theorem flattenMarket_market (m : Market) (c : Classification) (T : ℚ)
    (r : Row) (h : r ∈ flattenMarket m c T) : r.market = m := by
  cases c with
  | binary y n =>
    simp only [flattenMarket] at h
    split at h
    · rcases List.mem_singleton.mp h with rfl; rfl
    · split at h
      · rcases List.mem_singleton.mp h with rfl; rfl
      · cases h
  | multi os ps =>
    simp only [flattenMarket, List.mem_filterMap] at h
    obtain ⟨op, _, hsome⟩ := h
    split at hsome
    · rcases Option.some.inj hsome with rfl; rfl
    · cases hsome

theorem filterMap_if_eq_filter_map {α β : Type} (p : α → Prop)
    [DecidablePred p] (g : α → β) (l : List α) :
    (l.filterMap fun a => if p a then some (g a) else none) =
      (l.filter fun a => decide (p a)).map g := by
  induction l with
  | nil => rfl
  | cons a l ih =>
    by_cases h : p a <;>
      simp [List.filterMap_cons, List.filter_cons, h, ih]

theorem flatten_of_classify (m : Market) (T : ℚ) (c : Classification)
    (hc : classifyMarket m T = some c) (hT : 0 < T)
    (hlen : ∀ os ps, m.outcomes = some os → m.outcomePrices = some ps →
      os.length = ps.length) :
    ∃ r, r ∈ flattenMarket m c T := by
  cases ho : m.outcomes with
  | none => cases hp : m.outcomePrices <;> simp [classifyMarket, ho, hp] at hc
  | some os =>
  cases hp : m.outcomePrices with
  | none => simp [classifyMarket, ho, hp] at hc
  | some ps =>
  simp only [classifyMarket, ho, hp] at hc
  by_cases hb : os = ["Yes", "No"]
  · rw [if_pos hb] at hc
    cases ps with
    | nil => simp only [] at hc; cases hc
    | cons p rest =>
      simp only [] at hc
      by_cases hq : p ≥ T ∨ p ≤ 1 - T
      · rw [if_pos hq] at hc
        obtain rfl := Option.some.inj hc
        by_cases h1 : p ≥ T
        · refine ⟨⟨m, "YES", p, some (rest.headD (1 - p)), "YES", true⟩, ?_⟩
          simp only [flattenMarket, if_pos h1]
          exact List.mem_singleton.mpr rfl
        · have h2 : p ≤ 1 - T := hq.resolve_left h1
          refine ⟨⟨m, "NO", p, some (rest.headD (1 - p)), "NO", true⟩, ?_⟩
          simp only [flattenMarket, if_neg h1, if_pos h2]
          exact List.mem_singleton.mpr rfl
      · rw [if_neg hq] at hc; cases hc
  · rw [if_neg hb] at hc
    by_cases hq : listMax ps ≥ T
    · rw [if_pos hq] at hc
      obtain rfl := Option.some.inj hc
      have hne : ps ≠ [] := by
        intro hnil
        rw [hnil, listMax] at hq
        exact absurd hq (not_le.mpr hT)
      obtain ⟨p, hpmem, hTp⟩ := (listMax_ge_iff T ps hne).mp hq
      obtain ⟨i, hi, rfl⟩ := List.mem_iff_getElem.mp hpmem
      have hlen' : os.length = ps.length := hlen os ps ho hp
      have hio : i < os.length := by omega
      have hiz : i < (os.zip ps).length := by
        rw [List.length_zip]; omega
      refine ⟨⟨m, os[i], ps[i], none, os[i], false⟩, ?_⟩
      simp only [flattenMarket, List.mem_filterMap]
      refine ⟨(os[i], ps[i]), ?_, ?_⟩
      · have hz : (os.zip ps)[i] = (os[i], ps[i]) := List.getElem_zip
        rw [← hz]
        exact List.getElem_mem hiz
      · rw [if_pos hTp]
    · rw [if_neg hq] at hc; cases hc

/-! ### Lemmas about the keyword and tag predicates -/

theorem lowerStr_append (a b : String) :
    lowerStr (a ++ b) = lowerStr a ++ lowerStr b := by
  cases a with
  | mk la =>
    cases b with
    | mk lb =>
      show String.mk ((la ++ lb).map Char.toLower) =
        String.mk (la.map Char.toLower) ++ String.mk (lb.map Char.toLower)
      rw [show String.mk (la.map Char.toLower) ++
            String.mk (lb.map Char.toLower) =
            String.mk (la.map Char.toLower ++ lb.map Char.toLower) from rfl,
        List.map_append]

theorem lowerStr_space : lowerStr " " = " " := by decide

/-- The concatenated searchable text before lower-casing: question,
event title (empty when absent), category and subcategory, space
separated, as in the spec sentence for the keyword filter. -/
def concatSearchText (m : Market) : String :=
  m.question ++ " " ++ m.event.getD "" ++ " " ++ m.category ++ " " ++
    m.subcategory

/-- Spec-side formulation of the keyword-filter predicate: some
configured keyword is a case-insensitive substring of the concatenated
question+event+category+subcategory text. -/
def kwExcludedSpec (m : Market) : Prop :=
  ∃ kw ∈ esports_keywords,
    (lowerStr kw).data <:+: (lowerStr (concatSearchText m)).data

theorem searchableText_eq_lower_concat (m : Market) :
    searchableText m = lowerStr (concatSearchText m) := by
  cases he : m.event with
  | none =>
    simp [searchableText, concatSearchText, he, lowerStr_append,
      lowerStr_space]
  | some t =>
    simp [searchableText, concatSearchText, he, lowerStr_append,
      lowerStr_space]

theorem esports_keywords_lower :
    ∀ kw ∈ esports_keywords, lowerStr kw = kw := by decide

theorem matchedKeywords_ne_nil_iff (m : Market) :
    (!(matchedKeywords m).isEmpty) = true ↔ kwExcludedSpec m := by
  constructor
  · intro h
    have hne : matchedKeywords m ≠ [] := by
      intro hnil
      rw [hnil] at h
      cases h
    obtain ⟨kw, hkw⟩ := List.exists_mem_of_ne_nil _ hne
    obtain ⟨hmem, hsub⟩ := List.mem_filter.mp hkw
    have hsub' : kw.data <:+: (searchableText m).data := of_decide_eq_true hsub
    refine ⟨kw, hmem, ?_⟩
    rw [esports_keywords_lower kw hmem, ← searchableText_eq_lower_concat]
    exact hsub'
  · rintro ⟨kw, hmem, hsub⟩
    have hsub' : kw.data <:+: (searchableText m).data := by
      rw [searchableText_eq_lower_concat, ← esports_keywords_lower kw hmem]
      exact hsub
    have hkw : kw ∈ matchedKeywords m :=
      List.mem_filter.mpr ⟨hmem, decide_eq_true hsub'⟩
    cases hm : matchedKeywords m with
    | nil => rw [hm] at hkw; cases hkw
    | cons a l => rfl

theorem tagMatches_iff (cfg : List Tag) (t : Tag) :
    tagMatches cfg t = true ↔
      (∃ i, t.id = some i ∧ i ∈ exclusionIds cfg) ∨
      lowerStr t.slug ∈ exclusionSlugs cfg ∨
      lowerStr t.label ∈ exclusionLabels cfg := by
  cases h : t.id with
  | none => simp [tagMatches, h]
  | some i => simp [tagMatches, h, or_assoc]

theorem matchedTags_ne_nil_iff (cfg : List Tag) (m : Market) :
    (!(matchedTags cfg m).isEmpty) = true ↔
      ∃ t ∈ m.tags, tagMatches cfg t = true := by
  constructor
  · intro h
    have hne : matchedTags cfg m ≠ [] := by
      intro hnil
      rw [hnil] at h
      cases h
    obtain ⟨t, ht⟩ := List.exists_mem_of_ne_nil _ hne
    obtain ⟨hmem, hmatch⟩ := List.mem_filter.mp ht
    exact ⟨t, hmem, hmatch⟩
  · rintro ⟨t, hmem, hmatch⟩
    have ht : t ∈ matchedTags cfg m := List.mem_filter.mpr ⟨hmem, hmatch⟩
    cases hm : matchedTags cfg m with
    | nil => rw [hm] at ht; cases ht
    | cons a l => rfl

/-! ### Classifier characterizations -/

theorem classifyMarket_binary (m : Market) (T p : ℚ) (rest : List ℚ)
    (ho : m.outcomes = some ["Yes", "No"])
    (hp : m.outcomePrices = some (p :: rest)) :
    classifyMarket m T =
      if p ≥ T ∨ p ≤ 1 - T then
        some (.binary p (rest.headD (1 - p)))
      else none := by
  simp [classifyMarket, ho, hp]

theorem classifyMarket_multi (m : Market) (T : ℚ) (os : List String)
    (ps : List ℚ) (ho : m.outcomes = some os) (hos : os ≠ ["Yes", "No"])
    (hp : m.outcomePrices = some ps) :
    classifyMarket m T =
      if listMax ps ≥ T then some (.multi os ps) else none := by
  simp only [classifyMarket, ho, hp, if_neg hos]

/-! ### Claim theorems -/

/-- C1: a binary Listing (outcome vector exactly `["Yes","No"]`) with
parseable prices and YES price `p = prices[0]` is routed to the
qualifying partition iff `p ≥ T` or `p ≤ 1 - T`, and the attached
complement price is `prices[1]` when present, else `1 - p`. -/
theorem binary_threshold_routing (ms : List Market) (T p : ℚ)
    (rest : List ℚ) (m : Market) (hm : m ∈ ms)
    (ho : m.outcomes = some ["Yes", "No"])
    (hp : m.outcomePrices = some (p :: rest)) :
    ((∃ c, (m, c) ∈ (apply_price_threshold ms T).1) ↔
      (p ≥ T ∨ p ≤ 1 - T)) ∧
    ∀ c, (m, c) ∈ (apply_price_threshold ms T).1 →
      c = Classification.binary p (rest.headD (1 - p)) := by
  have hcm := classifyMarket_binary m T p rest ho hp
  constructor
  · constructor
    · rintro ⟨c, hc⟩
      have h2 := (mem_apply_price_threshold_fst ms T m c).mp hc
      by_cases hq : p ≥ T ∨ p ≤ 1 - T
      · exact hq
      · rw [hcm, if_neg hq] at h2; cases h2.2
    · intro hq
      refine ⟨Classification.binary p (rest.headD (1 - p)),
        (mem_apply_price_threshold_fst ms T m _).mpr ⟨hm, ?_⟩⟩
      rw [hcm, if_pos hq]
  · intro c hc
    have h2 := (mem_apply_price_threshold_fst ms T m c).mp hc
    by_cases hq : p ≥ T ∨ p ≤ 1 - T
    · rw [hcm, if_pos hq] at h2
      exact (Option.some.inj h2.2).symm
    · rw [hcm, if_neg hq] at h2; cases h2.2

/-- Concrete binary market for the C1 witness: `T = 0.95`, YES price
`0.97`, complement present. -/
def mW1 : Market :=
  ⟨"q1", none, "", "", some ["Yes", "No"], some [97/100, 3/100], none,
   "", []⟩

/-- C1 witness: `binary_threshold_routing` applied at `mW1`. -/
theorem binary_threshold_routing_witness :
    ∃ c, (mW1, c) ∈ (apply_price_threshold [mW1] (95/100 : ℚ)).1 :=
  (binary_threshold_routing [mW1] (95/100) (97/100) [3/100] mW1
    (List.mem_singleton.mpr rfl) rfl rfl).1.mpr (Or.inl (by norm_num))

/-- C2: a multi-outcome Listing (outcome vector not `["Yes","No"]`) with
parseable, nonempty vectors is routed to the qualifying partition iff
some price reaches `T` (i.e. `max(prices) ≥ T`), and the flattener then
emits exactly one Row per `(outcome, price)` pair whose price reaches
`T`, each with no complementary price and certainty side equal to the own
label of the outcome. -/
theorem multi_threshold_routing_and_flatten (ms : List Market) (T : ℚ)
    (m : Market) (os : List String) (ps : List ℚ) (hm : m ∈ ms)
    (ho : m.outcomes = some os) (hos : os ≠ ["Yes", "No"])
    (hp : m.outcomePrices = some ps) (hne : ps ≠ []) :
    ((∃ c, (m, c) ∈ (apply_price_threshold ms T).1) ↔ ∃ p ∈ ps, p ≥ T) ∧
    ∀ c, (m, c) ∈ (apply_price_threshold ms T).1 →
      flattenMarket m c T =
        ((os.zip ps).filter fun op => decide (op.2 ≥ T)).map
          fun op => ⟨m, op.1, op.2, none, op.1, false⟩ := by
  have hcm := classifyMarket_multi m T os ps ho hos hp
  constructor
  · constructor
    · rintro ⟨c, hc⟩
      have h2 := (mem_apply_price_threshold_fst ms T m c).mp hc
      by_cases hq : listMax ps ≥ T
      · exact (listMax_ge_iff T ps hne).mp hq
      · rw [hcm, if_neg hq] at h2; cases h2.2
    · intro hq
      have hq' : listMax ps ≥ T := (listMax_ge_iff T ps hne).mpr hq
      exact ⟨Classification.multi os ps,
        (mem_apply_price_threshold_fst ms T m _).mpr
          ⟨hm, by rw [hcm, if_pos hq']⟩⟩
  · intro c hc
    have h2 := (mem_apply_price_threshold_fst ms T m c).mp hc
    by_cases hq : listMax ps ≥ T
    · rw [hcm, if_pos hq] at h2
      obtain rfl := Option.some.inj h2.2
      exact filterMap_if_eq_filter_map (fun op => op.2 ≥ T) _ (os.zip ps)
    · rw [hcm, if_neg hq] at h2; cases h2.2

/-- Concrete multi-outcome market for the C2 witness: the spec example
`["A","B","C"]` with prices `[0.96, 0.97, 0.01]` and `T = 0.95`. -/
def mW2 : Market :=
  ⟨"q2", none, "", "", some ["A", "B", "C"],
   some [96/100, 97/100, 1/100], none, "", []⟩

/-- C2 witness: `multi_threshold_routing_and_flatten` applied at `mW2`
yields its two Rows, one for A and one for B. -/
theorem multi_threshold_routing_and_flatten_witness :
    ∃ c, (mW2, c) ∈ (apply_price_threshold [mW2] (95/100 : ℚ)).1 ∧
      flattenMarket mW2 c (95/100) =
        [⟨mW2, "A", 96/100, none, "A", false⟩,
         ⟨mW2, "B", 97/100, none, "B", false⟩] := by
  have h := multi_threshold_routing_and_flatten [mW2] (95/100) mW2
    ["A", "B", "C"] [96/100, 97/100, 1/100]
    (List.mem_singleton.mpr rfl) rfl (by decide) rfl (by decide)
  obtain ⟨c, hc⟩ := h.1.mpr ⟨96/100, by norm_num, by norm_num⟩
  refine ⟨c, hc, (h.2 c hc).trans ?_⟩
  norm_num [List.zip, List.zipWith, List.filter_cons, List.filter_nil]

/-- C10: a Listing whose outcome vector parses to `["Yes","No"]` but
whose price vector parses to the empty list is routed to the unqualified
partition (the `IndexError` on `prices[0]` is caught, not raised), and
the rest of the batch is still processed. -/
theorem binary_empty_prices_unqualified (m : Market) (T : ℚ)
    (ho : m.outcomes = some ["Yes", "No"])
    (hp : m.outcomePrices = some []) :
    classifyMarket m T = none ∧
    ∀ rest : List Market, apply_price_threshold (m :: rest) T =
      ((apply_price_threshold rest T).1,
       m :: (apply_price_threshold rest T).2) := by
  have h1 : classifyMarket m T = none := by simp [classifyMarket, ho, hp]
  refine ⟨h1, fun rest => ?_⟩
  simp [apply_price_threshold, h1]

/-- Concrete market for the C10 witness: binary labels, empty price
vector. -/
def mW10 : Market :=
  ⟨"q10", none, "", "", some ["Yes", "No"], some [], none, "", []⟩

/-- Concrete qualifying market processed after `mW10` in the C10
witness batch. -/
def mW10b : Market :=
  ⟨"q10b", none, "", "", some ["Yes", "No"], some [97/100, 3/100], none,
   "", []⟩

/-- C10 witness: `binary_empty_prices_unqualified` applied at `mW10`;
the following market `mW10b` is still classified. -/
theorem binary_empty_prices_unqualified_witness :
    classifyMarket mW10 (95/100 : ℚ) = none ∧
    apply_price_threshold [mW10, mW10b] (95/100 : ℚ) =
      ([(mW10b, Classification.binary (97/100) (3/100))], [mW10]) := by
  have h := binary_empty_prices_unqualified mW10 (95/100) rfl rfl
  refine ⟨h.1, ?_⟩
  rw [h.2 [mW10b]]
  have hb := classifyMarket_binary mW10b (95/100) (97/100) [3/100] rfl rfl
  rw [if_pos (Or.inl (by norm_num))] at hb
  simp [apply_price_threshold, hb]

/-- Concrete market falsifying C4: outcome vector `["Yes","No"]`
(length 2), price vector `[0.97]` (length 1). -/
def mC4 : Market :=
  ⟨"q4", none, "", "", some ["Yes", "No"], some [97/100], none, "", []⟩

/-- C4 counterexample: `mC4` has mismatched vector lengths, yet the
classifier routes it to the QUALIFYING partition (there is no length
check in `apply_price_threshold`), contradicting the claim that every
mismatched Listing is routed to the unqualified partition. -/
theorem mismatched_lengths_counterexample :
    mC4.outcomes = some ["Yes", "No"] ∧
    mC4.outcomePrices = some [97/100] ∧
    (["Yes", "No"] : List String).length ≠ ([(97:ℚ)/100] : List ℚ).length ∧
    (∃ c, (mC4, c) ∈ (apply_price_threshold [mC4] (95/100 : ℚ)).1) := by
  refine ⟨rfl, rfl, by decide,
    ⟨Classification.binary (97/100) (1 - 97/100), ?_⟩⟩
  have hb := classifyMarket_binary mC4 (95/100) (97/100) [] rfl rfl
  rw [if_pos (Or.inl (by norm_num))] at hb
  rw [mem_apply_price_threshold_fst]
  exact ⟨List.mem_singleton.mpr rfl, hb⟩

/-- C4 amended: a Listing with mismatched vector lengths never fails
the run; but it is NOT forced to the unqualified partition — it is
classified by the ordinary price rules (binary labels with an empty
price vector go unqualified; binary labels with a nonempty price vector
qualify iff `p ≥ T` or `p ≤ 1 - T`; non-binary labels qualify iff
`max(prices) ≥ T`), so a mismatched Listing can reach the qualifying
partition. -/
theorem mismatched_lengths_price_rules (m : Market) (T : ℚ)
    (os : List String) (ps : List ℚ)
    (ho : m.outcomes = some os) (hp : m.outcomePrices = some ps)
    (hlen : os.length ≠ ps.length) :
    (classifyMarket m T).isSome = true ↔
      (os = ["Yes", "No"] ∧
        ∃ p rest, ps = p :: rest ∧ (p ≥ T ∨ p ≤ 1 - T)) ∨
      (os ≠ ["Yes", "No"] ∧ listMax ps ≥ T) := by
  by_cases hb : os = ["Yes", "No"]
  · subst hb
    cases ps with
    | nil =>
      have h1 : classifyMarket m T = none := by
        simp [classifyMarket, ho, hp]
      rw [h1]
      constructor
      · intro h; cases h
      · rintro (⟨-, p, rest, hps, -⟩ | ⟨hos, -⟩)
        · cases hps
        · exact absurd rfl hos
    | cons p rest =>
      rw [classifyMarket_binary m T p rest ho hp]
      by_cases hq : p ≥ T ∨ p ≤ 1 - T
      · rw [if_pos hq]
        exact iff_of_true rfl (Or.inl ⟨rfl, p, rest, rfl, hq⟩)
      · rw [if_neg hq]
        refine iff_of_false (by simp) ?_
        rintro (⟨-, p', rest', hps, hq'⟩ | ⟨hos, -⟩)
        · obtain ⟨rfl, rfl⟩ := List.cons.inj hps
          exact absurd hq' hq
        · exact absurd rfl hos
  · rw [classifyMarket_multi m T os ps ho hb hp]
    by_cases hq : listMax ps ≥ T
    · rw [if_pos hq]
      exact iff_of_true rfl (Or.inr ⟨hb, hq⟩)
    · rw [if_neg hq]
      refine iff_of_false (by simp) ?_
      rintro (⟨hos, -⟩ | ⟨-, hq'⟩)
      · exact absurd hos hb
      · exact absurd hq' hq

/-- C4 amended witness: `mismatched_lengths_price_rules` applied at the
mismatched market `mC4`, which qualifies. -/
theorem mismatched_lengths_price_rules_witness :
    (classifyMarket mC4 (95/100 : ℚ)).isSome = true :=
  (mismatched_lengths_price_rules mC4 (95/100) ["Yes", "No"] [97/100]
    rfl rfl (by decide)).mpr
    (Or.inl ⟨rfl, 97/100, [], rfl, Or.inl (by norm_num)⟩)

/-- Concrete market falsifying C3: one outcome named A but two prices
0.01 and 0.99; the maximal price 0.99 reaches 0.95 so it qualifies, but
the zip in the flattener truncates to the single pair of A with price
0.01 and emits no Row. -/
def mC3 : Market :=
  ⟨"q3", none, "", "", some ["A"], some [1/100, 99/100], none, "", []⟩

/-- C3 counterexample: `mC3` is routed to the qualifying partition by
the classifier, yet the classify-then-flatten sequence produces no Row
at all — refuting "contributes at least one Row iff qualifying". -/
theorem contributes_iff_qualifying_counterexample :
    (∃ c, (mC3, c) ∈ (apply_price_threshold [mC3] (95/100 : ℚ)).1) ∧
    flatten_multi_outcome_markets
      (apply_price_threshold [mC3] (95/100 : ℚ)).1 (95/100) = [] := by
  have hc : classifyMarket mC3 (95/100) =
      some (Classification.multi ["A"] [1/100, 99/100]) := by
    rw [classifyMarket_multi mC3 (95/100) ["A"] [1/100, 99/100] rfl
      (by decide) rfl]
    rw [if_pos (by norm_num [listMax, List.foldl])]
  constructor
  · exact ⟨Classification.multi ["A"] [1/100, 99/100],
      (mem_apply_price_threshold_fst [mC3] (95/100) mC3 _).mpr
        ⟨List.mem_singleton.mpr rfl, hc⟩⟩
  · rw [apply_price_threshold_eq]
    simp only [List.filterMap_cons, List.filterMap_nil, hc, Option.map_some']
    norm_num [flatten_multi_outcome_markets, flattenMarket, List.zip,
      List.zipWith, List.filterMap_cons]

/-- C3 amended: for a positive threshold, and restricted to Listings
whose parsed outcome and price vectors (when both parse) have equal
length, a Listing contributes at least one Row of the classify-then-
flatten sequence iff it was routed to the qualifying partition. -/
theorem contributes_iff_qualifying (ms : List Market) (T : ℚ)
    (hT : 0 < T) (m : Market) (_hm : m ∈ ms)
    (hlen : ∀ os ps, m.outcomes = some os → m.outcomePrices = some ps →
      os.length = ps.length) :
    (∃ r ∈ flatten_multi_outcome_markets
        (apply_price_threshold ms T).1 T, r.market = m) ↔
      ∃ c, (m, c) ∈ (apply_price_threshold ms T).1 := by
  constructor
  · rintro ⟨r, hr, hrm⟩
    obtain ⟨mc, hmc, hrf⟩ := (mem_flatten_iff _ T r).mp hr
    have hme : r.market = mc.1 := flattenMarket_market mc.1 mc.2 T r hrf
    have h1 : mc.1 = m := hme.symm.trans hrm
    exact ⟨mc.2, by rw [← h1]; exact hmc⟩
  · rintro ⟨c, hc⟩
    have hcm := (mem_apply_price_threshold_fst ms T m c).mp hc
    obtain ⟨r, hr⟩ := flatten_of_classify m T c hcm.2 hT hlen
    exact ⟨r, (mem_flatten_iff _ T r).mpr ⟨(m, c), hc, hr⟩,
      flattenMarket_market m c T r hr⟩

/-- Concrete equal-length qualifying binary market for the C3 amended
witness. -/
def mW3 : Market :=
  ⟨"q3b", none, "", "", some ["Yes", "No"], some [96/100, 4/100], none,
   "", []⟩

/-- C3 amended witness: `contributes_iff_qualifying` applied at `mW3`. -/
theorem contributes_iff_qualifying_witness :
    ∃ r ∈ flatten_multi_outcome_markets
      (apply_price_threshold [mW3] (95/100 : ℚ)).1 (95/100),
      r.market = mW3 := by
  refine (contributes_iff_qualifying [mW3] (95/100) (by norm_num) mW3
    (List.mem_singleton.mpr rfl) ?_).mpr ?_
  · intro os ps h1 h2
    obtain rfl := Option.some.inj h1
    obtain rfl := Option.some.inj h2
    rfl
  · refine ⟨Classification.binary (96/100) ([(4:ℚ)/100].headD (1 - 96/100)),
      (mem_apply_price_threshold_fst [mW3] (95/100) mW3 _).mpr
        ⟨List.mem_singleton.mpr rfl, ?_⟩⟩
    rw [classifyMarket_binary mW3 (95/100) (96/100) [4/100] rfl rfl]
    rw [if_pos (Or.inl (by norm_num))]

/-- C5: a Row whose resolution timestamp of the source Listing parses to an
instant `E` is retained by the time-window filter iff
`now ≤ E ≤ now + W` hours, both bounds inclusive; Rows with an absent
or unparseable timestamp (modelled `endDate = none`) are excluded. -/
theorem time_window_retention (rows : List Row) (W now : Int) (r : Row)
    (hr : r ∈ rows) :
    ((∃ d, (r, d) ∈ (apply_time_window rows W now).in_window) ↔
      ∃ e, r.market.endDate = some e ∧ now ≤ e ∧ e ≤ now + W * 3600) ∧
    (r.market.endDate = none →
      r ∈ (apply_time_window rows W now).outside_window) := by
  constructor
  · constructor
    · rintro ⟨d, hd⟩
      obtain ⟨-, e, he, hw, -⟩ := (mem_apply_time_window_in rows W now r d).mp hd
      exact ⟨e, he, hw.1, hw.2⟩
    · rintro ⟨e, he, hw1, hw2⟩
      exact ⟨⟨e, ((e - now : Int) : ℚ) / 3600, marketUrl r.market⟩,
        (mem_apply_time_window_in rows W now r _).mpr
          ⟨hr, e, he, ⟨hw1, hw2⟩, rfl⟩⟩
  · intro hnone
    rw [apply_time_window_outside_eq]
    refine List.mem_filter.mpr ⟨hr, ?_⟩
    rw [inWindowB_none r W now hnone]
    rfl

/-- Concrete market and Row for the C5 witness: resolution instant
exactly `now + W` hours (the inclusive upper boundary), `now = 0`,
`W = 48`. -/
def mW5 : Market :=
  ⟨"q5", none, "", "", some ["Yes", "No"], some [96/100, 4/100],
   some 172800, "slug5", []⟩

/-- The Row carrying `mW5` in the C5 witness. -/
def rW5 : Row :=
  ⟨mW5, "YES", 96/100, some (4/100), "YES", true⟩

/-- C5 witness: `time_window_retention` applied at `rW5`, whose
resolution instant equals `now + W` exactly and which is retained. -/
theorem time_window_retention_witness :
    ∃ d, (rW5, d) ∈ (apply_time_window [rW5] 48 0).in_window :=
  (time_window_retention [rW5] 48 0 rW5
    (List.mem_singleton.mpr rfl)).1.mpr ⟨172800, rfl, by decide, by decide⟩

/-- C6: the keyword filter excludes a Listing iff at least one
configured keyword is a case-insensitive substring of the concatenated
question + event title + category + subcategory text
(`kwExcludedSpec`). -/
theorem keyword_exclusion_iff (ms : List Market) (m : Market) :
    (∃ l, (m, l) ∈ (exclude_by_keywords ms).2) ↔
      m ∈ ms ∧ kwExcludedSpec m := by
  rw [exclude_by_keywords_eq]
  simp only [List.mem_map, List.mem_filter, Prod.mk.injEq]
  constructor
  · rintro ⟨l, m', ⟨hm', hex⟩, rfl, rfl⟩
    exact ⟨hm', (matchedKeywords_ne_nil_iff m').mp hex⟩
  · rintro ⟨hm, hspec⟩
    exact ⟨matchedKeywords m, m,
      ⟨hm, (matchedKeywords_ne_nil_iff m).mpr hspec⟩, rfl, rfl⟩

/-- C7: the tag filter excludes a Listing iff some attached tag matches
by identifier, lower-cased short-name (slug), or lower-cased label; in
particular a Listing with no attached tags is never excluded. -/
theorem tag_exclusion_iff (cfg : List Tag) (ms : List Market)
    (m : Market) :
    ((∃ l, (m, l) ∈ (exclude_by_tags ms cfg).2) ↔
      m ∈ ms ∧ ∃ t ∈ m.tags,
        (∃ i, t.id = some i ∧ i ∈ exclusionIds cfg) ∨
        lowerStr t.slug ∈ exclusionSlugs cfg ∨
        lowerStr t.label ∈ exclusionLabels cfg) ∧
    (m.tags = [] → ∀ l, (m, l) ∉ (exclude_by_tags ms cfg).2) := by
  have hiff : (∃ l, (m, l) ∈ (exclude_by_tags ms cfg).2) ↔
      m ∈ ms ∧ ∃ t ∈ m.tags,
        (∃ i, t.id = some i ∧ i ∈ exclusionIds cfg) ∨
        lowerStr t.slug ∈ exclusionSlugs cfg ∨
        lowerStr t.label ∈ exclusionLabels cfg := by
    rw [exclude_by_tags_eq]
    simp only [List.mem_map, List.mem_filter, Prod.mk.injEq]
    constructor
    · rintro ⟨l, m', ⟨hm', hex⟩, rfl, rfl⟩
      obtain ⟨t, ht, hmatch⟩ := (matchedTags_ne_nil_iff cfg m').mp hex
      exact ⟨hm', t, ht, (tagMatches_iff cfg t).mp hmatch⟩
    · rintro ⟨hm, t, ht, hmatch⟩
      exact ⟨matchedTags cfg m, m,
        ⟨hm, (matchedTags_ne_nil_iff cfg m).mpr
          ⟨t, ht, (tagMatches_iff cfg t).mpr hmatch⟩⟩, rfl, rfl⟩
  refine ⟨hiff, fun htags l hmem => ?_⟩
  obtain ⟨-, t, ht, -⟩ := hiff.mp ⟨l, hmem⟩
  rw [htags] at ht
  cases ht

/-- Exclusion-tag configuration for the C7 witness. -/
def cfgW7 : List Tag := [⟨some 1, "sports", "Sports"⟩]

/-- Concrete market for the C7 witness, carrying a matching tag. -/
def mW7 : Market :=
  ⟨"q7", none, "", "", some ["Yes", "No"], some [96/100, 4/100], none,
   "", [⟨some 1, "sports", "Sports"⟩]⟩

/-- C7 witness: `tag_exclusion_iff` applied at `mW7`, excluded via its
tag identifier. -/
theorem tag_exclusion_iff_witness :
    ∃ l, (mW7, l) ∈ (exclude_by_tags [mW7] cfgW7).2 :=
  (tag_exclusion_iff cfgW7 [mW7] mW7).1.mpr
    ⟨List.mem_singleton.mpr rfl, ⟨some 1, "sports", "Sports"⟩,
      List.mem_singleton.mpr rfl, Or.inl ⟨1, rfl, by decide⟩⟩

/-- C8: the export sort orders Rows ascending by resolution instant,
and Rows with equal resolution instants keep their input order (for
every instant `t`, the sublist of Rows with instant `t` is unchanged). -/
theorem export_sort_sorted_stable (rows : List (Row × Derived)) :
    List.Pairwise
      (fun a b : Row × Derived =>
        a.2.resolve_datetime ≤ b.2.resolve_datetime)
      (exportSortedRows rows) ∧
    ∀ t : Int,
      (exportSortedRows rows).filter
          (fun a => a.2.resolve_datetime = t) =
        rows.filter (fun a => a.2.resolve_datetime = t) := by
  have htrans : ∀ a b c : Row × Derived,
      rowLE a b → rowLE b c → rowLE a c := by
    intro a b c hab hbc
    simp only [rowLE, decide_eq_true_eq] at *
    exact le_trans hab hbc
  have htotal : ∀ a b : Row × Derived, rowLE a b || rowLE b a := by
    intro a b
    simp only [rowLE, Bool.or_eq_true, decide_eq_true_eq]
    exact le_total _ _
  constructor
  · have h := List.sorted_mergeSort htrans htotal rows
    exact h.imp fun hab => by
      simpa [rowLE, decide_eq_true_eq] using hab
  · intro t
    have hall : ∀ a ∈ rows.filter
        (fun a : Row × Derived => decide (a.2.resolve_datetime = t)),
        a.2.resolve_datetime = t := by
      intro a ha
      exact of_decide_eq_true (List.mem_filter.mp ha).2
    have hc : (rows.filter
        (fun a : Row × Derived => decide (a.2.resolve_datetime = t))).Pairwise
        (fun a b => rowLE a b = true) := by
      apply List.pairwise_of_forall_mem_list
      intro a ha b hb
      simp only [rowLE, decide_eq_true_eq]
      rw [hall a ha, hall b hb]
    have hsub : List.Sublist
        (rows.filter
          (fun a : Row × Derived => decide (a.2.resolve_datetime = t)))
        (exportSortedRows rows) :=
      List.sublist_mergeSort htrans htotal hc (List.filter_sublist rows)
    have hperm : List.Perm
        ((exportSortedRows rows).filter
          (fun a : Row × Derived => decide (a.2.resolve_datetime = t)))
        (rows.filter
          (fun a : Row × Derived => decide (a.2.resolve_datetime = t))) :=
      (List.mergeSort_perm rows rowLE).filter _
    have hsub2 : List.Sublist
        (rows.filter
          (fun a : Row × Derived => decide (a.2.resolve_datetime = t)))
        ((exportSortedRows rows).filter
          (fun a : Row × Derived => decide (a.2.resolve_datetime = t))) := by
      have h1 := hsub.filter
        (fun a : Row × Derived => decide (a.2.resolve_datetime = t))
      rwa [List.filter_eq_self.mpr] at h1
      intro a ha
      exact decide_eq_true (hall a ha)
    exact (hsub2.eq_of_length hperm.length_eq.symm).symm

/-- C9: each of the four filtering stages partitions its input: the two
outputs are the sublists of elements on which the decision predicate
of the stage is true resp. false, so every input element lands in exactly
one output, none is duplicated or dropped, and input order is kept. -/
theorem stages_partition (cfg : List Tag) (ms1 ms2 ms3 : List Market)
    (T : ℚ) (rows : List Row) (W now : Int) :
    ((exclude_by_tags ms1 cfg).1 =
        ms1.filter (fun m => (matchedTags cfg m).isEmpty) ∧
      (exclude_by_tags ms1 cfg).2.map Prod.fst =
        ms1.filter (fun m => !(matchedTags cfg m).isEmpty)) ∧
    ((exclude_by_keywords ms2).1 =
        ms2.filter (fun m => (matchedKeywords m).isEmpty) ∧
      (exclude_by_keywords ms2).2.map Prod.fst =
        ms2.filter (fun m => !(matchedKeywords m).isEmpty)) ∧
    ((apply_price_threshold ms3 T).1.map Prod.fst =
        ms3.filter (fun m => (classifyMarket m T).isSome) ∧
      (apply_price_threshold ms3 T).2 =
        ms3.filter (fun m => !(classifyMarket m T).isSome)) ∧
    ((apply_time_window rows W now).in_window.map Prod.fst =
        rows.filter (fun r => inWindowB r W now) ∧
      (apply_time_window rows W now).outside_window =
        rows.filter (fun r => !inWindowB r W now)) := by
  refine ⟨⟨?_, ?_⟩, ⟨?_, ?_⟩, ⟨?_, ?_⟩,
    apply_time_window_in_map_fst rows W now,
    apply_time_window_outside_eq rows W now⟩
  · rw [exclude_by_tags_eq]
  · rw [exclude_by_tags_eq, List.map_map]
    exact List.map_id _
  · rw [exclude_by_keywords_eq]
  · rw [exclude_by_keywords_eq, List.map_map]
    exact List.map_id _
  · exact apply_price_threshold_fst_map ms3 T
  · rw [apply_price_threshold_eq]

end Scanner
